import Mathlib

/-!
Verification of the silence-removal core of `silenceremover.py`.

The embedding models the numeric core of the program:
* `silence_threshold` — the threshold computation of `get_edited_audio_matrix`
  (lines 174-187), with `Option ℚ` standing for a possibly-NaN float: `none`
  models the NaN produced by `np.mean` of an empty array, and every comparison
  against NaN is false (`qlt`).
* `build_final_mask` — the mask-building loop of `get_edited_audio_matrix`
  (lines 191-209), parameterised over sample rate, window factor and margin;
  the source instantiates the last two with the globals `WINDOW_FACTOR = 5`
  and `MARGIN = 100`.  The slice assignment
  `final_mask[last_ind + MARGIN : ind - MARGIN] = False` follows Python
  semantics: a negative stop index wraps around to `stop + n` (`sliceStopZ`).
  The mask is modelled as a total function `ℕ → Bool`; entries at or beyond
  the array length are never set to `false` because a resolved slice stop
  never exceeds the length.
* `frame_selection_plan` — the frame-selection loop of `cut_video`
  (lines 109-123), with the `Decimal` sample-per-frame increment modelled as
  an exact rational.  The inner `while to_keep[int(index)] >= expected_frame`
  loop is modelled by the closed form `skipCount`, certified against the loop
  by `skipCount_eq_loop`.
-/

namespace SilenceRemover

/-- Global constant `WINDOW_FACTOR = 5` (line 30). -/
def WINDOW_FACTOR : ℕ := 5

/-- Global constant `MARGIN = 100` (line 31). -/
def MARGIN : ℕ := 100

/-- The threshold strategies of the `ThresholdAlgo` enum (lines 44-48). -/
inductive ThresholdAlgo
  | SENSITIVE
  | WEAK
  | MODERATE
  | STRONG
deriving DecidableEq

/-- `np.mean`: the arithmetic mean of a list; `np.mean` of an empty array is
NaN (a `RuntimeWarning`, not an exception), modelled as `none`. -/
def npMean (l : List ℚ) : Option ℚ :=
  if l.length = 0 then none else some (l.sum / l.length)

/-- The silence-threshold computation of `get_edited_audio_matrix`
(lines 174-187), applied to `data_tmp` (the amplitude envelope).
`SENSITIVE`: twice the mean of the below-mean subset; `WEAK`: half the mean;
`MODERATE`: the average of the below-mean-subset mean and the mean;
`STRONG`: the mean.  The below-mean subset is selected by
`np.abs(data_tmp) < first_threshold` (lines 176, 183). -/
def silence_threshold (data_tmp : List ℚ) (method : ThresholdAlgo) : Option ℚ :=
  match method with
  | .SENSITIVE =>
      match npMean data_tmp with
      | none => none
      | some ft => (npMean (data_tmp.filter (fun x => decide (|x| < ft)))).map (fun m => m * 2)
  | .WEAK => (npMean data_tmp).map (fun m => m / 2)
  | .MODERATE =>
      match npMean data_tmp with
      | none => none
      | some ft => (npMean (data_tmp.filter (fun x => decide (|x| < ft)))).map (fun m => (m + ft) / 2)
  | .STRONG => npMean data_tmp

/-- Comparison `x < thr` where `thr` may be NaN (`none`); every comparison
with NaN is false, as for numpy floats.  This is the per-sample silence
predicate `np.abs(data_tmp) < silence_threshold` of line 192 once `x` is the
absolute envelope value. -/
def qlt (x : ℚ) (thr : Option ℚ) : Bool :=
  match thr with
  | none => false
  | some v => decide (x < v)

/-- `to_check = np.where(mask == False)[0]` (line 195): the ascending list of
indices whose envelope value is not below the threshold (the loud indices). -/
def to_check (data_tmp : List ℚ) (thr : Option ℚ) : List ℕ :=
  (List.range data_tmp.length).filter (fun i => ! qlt |data_tmp.getD i 0| thr)

/-- Python slice-stop resolution for an array of length `n`: a negative stop
wraps to `stop + n`; a non-negative stop is clamped to `n`. -/
def sliceStopZ (n : ℕ) (b : ℤ) : ℤ :=
  if b < 0 then b + n else min b n

/-- The mask-mutation loop of `get_edited_audio_matrix` (lines 197-207): walk
the loud indices, and whenever `ind - last_ind > consec_frames` assign
`final_mask[last_ind + margin : ind - margin] = False` (with Python slice
semantics), then update `last_ind`. -/
def maskFold (n consec margin : ℕ) : List ℕ → ℕ → (ℕ → Bool) → (ℕ → Bool)
  | [], _, m => m
  | ind :: rest, last, m =>
      maskFold n consec margin rest ind
        (if (ind : ℤ) - last > (consec : ℤ) then
          fun j => if last + margin ≤ j ∧ (j : ℤ) < sliceStopZ n ((ind : ℤ) - margin) then false else m j
        else m)

/-- The mask built by `get_edited_audio_matrix` from an envelope `data_tmp`
and a (possibly NaN) threshold: `consec_frames = samplerate // windowFactor`
(line 191), initial mask all `True` (line 196), `last_ind = 0` (line 197). -/
def build_final_mask (data_tmp : List ℚ) (thr : Option ℚ)
    (samplerate windowFactor margin : ℕ) : ℕ → Bool :=
  maskFold data_tmp.length (samplerate / windowFactor) margin (to_check data_tmp thr) 0 (fun _ => true)

/-- `get_edited_audio_matrix` (lines 165-209) for single-channel data:
`data_tmp = np.abs(data)` (line 172), threshold from the selected method,
then the mask loop with the global `WINDOW_FACTOR` and `MARGIN`. -/
def get_edited_audio_matrix (data : List ℚ) (samplerate : ℕ) (method : ThresholdAlgo) : ℕ → Bool :=
  let data_tmp := data.map (fun x => |x|)
  build_final_mask data_tmp (silence_threshold data_tmp method) samplerate WINDOW_FACTOR MARGIN

/-- The mask computed inside `cut_audio` (line 220): the call reads
`get_edited_audio_matrix(data, samplerate, method=ThresholdAlgo.MODERATE)`,
so the `method` parameter received by `cut_audio` is ignored. -/
def cut_audio_mask (data : List ℚ) (samplerate : ℕ) (_method : ThresholdAlgo) : ℕ → Bool :=
  get_edited_audio_matrix data samplerate ThresholdAlgo.MODERATE

/-- `np.arange(0, stop, step)` for a positive rational `step`: the values
`k * step` for `k = 0, 1, ...` strictly below `stop`; its length is
`ceil(stop / step)`. -/
def arangeQ (stop : ℕ) (step : ℚ) : List ℚ :=
  if 0 < step then (List.range (Int.toNat ⌈(stop : ℚ) / step⌉)).map (fun k : ℕ => ((k : ℚ) * step)) else []

/-- Closed form of the loop `while target >= expected_frame: grab();
expected_frame += increment` of `cut_video` (lines 118-120): the number of
iterations performed when the cursor starts at `e`.  `skipCount_eq_loop`
below certifies this closed form against the loop. -/
def skipCount (target e inc : ℚ) : ℕ :=
  if 0 < inc ∧ e ≤ target then (⌊(target - e) / inc⌋ + 1).toNat else 0

/-- One pass of the frame-selection loop of `cut_video` (lines 117-123) over
the list of arange values.  The state is the pair
`(expected_frame, grabs so far)`; for each arange value `x` the target sample
index is `to_keep[int(x)]` (`int` truncates), the grab loop runs
`skipCount` times, and the current cursor position (the number of frames
grabbed) is appended to the plan before `retrieve()` decodes at it. -/
def planFold (toKeep : List ℕ) (inc : ℚ) : List ℚ → ℚ × ℕ → List ℕ
  | [], _ => []
  | x :: rest, st =>
      let t : ℚ := ((toKeep.getD (Int.toNat ⌊x⌋) 0 : ℕ) : ℚ)
      let s := skipCount t st.1 inc
      (st.2 + s) :: planFold toKeep inc rest (st.1 + s * inc, st.2 + s)

/-- The frame-selection plan of `cut_video` (lines 109-123): iterate over
`np.arange(0, len(to_keep), increment)` starting from
`expected_frame = 0` and an unread video stream, emitting the cursor
position decoded for each output frame.  The `Decimal` increment
`samplerate / framerate` is modelled as an exact rational. -/
def frame_selection_plan (toKeep : List ℕ) (inc : ℚ) : List ℕ :=
  planFold toKeep inc (arangeQ toKeep.length inc) (0, 0)

/-- Python `round`: round half to even, as used to read the claimed target
formula `round(i * samplesPerFrame)`. -/
def pythonRound (q : ℚ) : ℤ :=
  if q - ⌊q⌋ < 1/2 then ⌊q⌋
  else if (1 : ℚ)/2 < q - ⌊q⌋ then ⌊q⌋ + 1
  else if Even ⌊q⌋ then ⌊q⌋ else ⌊q⌋ + 1

/-- Closed form of a strict skipping loop `while expected < target`, used by
the claimed plan description. -/
def skipCountStrict (target e inc : ℚ) : ℕ :=
  if 0 < inc ∧ e < target then (⌈(target - e) / inc⌉).toNat else 0

/-- The plan as claim C8 words it: for output frame `i`, target sample index
`retainedIndexList[min(round(i * samplesPerFrame), len - 1)]`, skipping
forward while `expectedSampleCursor < targetIndex`, then decoding at the
current cursor position. -/
def planFoldClaimed (toKeep : List ℕ) (inc : ℚ) : List ℕ → ℚ × ℕ → List ℕ
  | [], _ => []
  | i :: rest, st =>
      let t : ℚ := ((toKeep.getD (min (Int.toNat (pythonRound ((i : ℚ) * inc))) (toKeep.length - 1)) 0 : ℕ) : ℚ)
      let s := skipCountStrict t st.1 inc
      (st.2 + s) :: planFoldClaimed toKeep inc rest (st.1 + s * inc, st.2 + s)

/-- The full claimed plan of C8: `ceil(len(retainedIndexList)/samplesPerFrame)`
output frames, with the claimed target formula and strict skip condition. -/
def frame_plan_claimed (toKeep : List ℕ) (inc : ℚ) : List ℕ :=
  planFoldClaimed toKeep inc (List.range (Int.toNat ⌈(toKeep.length : ℚ) / inc⌉)) (0, 0)

/-- The plan as the amended claim words it: target index
`retainedIndexList[int(i * samplesPerFrame)]` (truncation, no clamping
needed since `i * samplesPerFrame < len`), skipping forward while
`targetIndex >= expectedSampleCursor`. -/
def planFoldAmended (toKeep : List ℕ) (inc : ℚ) : List ℕ → ℚ × ℕ → List ℕ
  | [], _ => []
  | i :: rest, st =>
      let t : ℚ := ((toKeep.getD (Int.toNat ⌊(i : ℚ) * inc⌋) 0 : ℕ) : ℚ)
      let s := skipCount t st.1 inc
      (st.2 + s) :: planFoldAmended toKeep inc rest (st.1 + s * inc, st.2 + s)

/-- The full amended plan of C8. -/
def frame_plan_amended (toKeep : List ℕ) (inc : ℚ) : List ℕ :=
  planFoldAmended toKeep inc (List.range (Int.toNat ⌈(toKeep.length : ℚ) / inc⌉)) (0, 0)

/-- A walk pair `(last, ind)` marks index `j` exactly when the loud gap
exceeds `consec` and `j` lies in the Python-resolved slice
`[last + margin, resolve(ind - margin))`. -/
def markedBy (n consec margin : ℕ) (p : ℕ × ℕ) (j : ℕ) : Prop :=
  (p.2 : ℤ) - p.1 > (consec : ℤ) ∧ p.1 + margin ≤ j ∧ (j : ℤ) < sliceStopZ n ((p.2 : ℤ) - margin)

theorem sliceStopZ_le (n : ℕ) (b : ℤ) : sliceStopZ n b ≤ (n : ℤ) := by
  unfold sliceStopZ; split <;> omega

theorem sliceStopZ_le_self (n : ℕ) (b : ℤ) (h : 0 ≤ b) : sliceStopZ n b ≤ b := by
  unfold sliceStopZ; split <;> omega

theorem markedBy_lt {n consec margin : ℕ} {p : ℕ × ℕ} {j : ℕ}
    (hm : markedBy n consec margin p j) : j < n := by
  have := sliceStopZ_le n ((p.2 : ℤ) - margin)
  rcases hm with ⟨_, _, h3⟩
  omega

/-- Characterization of the mask loop: an index is `false` in the result iff
it was already `false`, or some walk pair (consecutive loud indices, with
`last_ind` starting at the given value) marks it. -/
theorem maskFold_false_iff (n consec margin : ℕ) (l : List ℕ) :
    ∀ (last : ℕ) (m : ℕ → Bool) (j : ℕ),
      maskFold n consec margin l last m j = false ↔
        m j = false ∨ ∃ p ∈ List.zip (last :: l) l, markedBy n consec margin p j := by
  induction l with
  | nil => intro last m j; simp [maskFold]
  | cons ind rest ih =>
      intro last m j
      simp only [maskFold]
      rw [ih, List.zip_cons_cons, List.exists_mem_cons_iff]
      by_cases h : (ind : ℤ) - last > (consec : ℤ)
      · rw [if_pos h]
        by_cases hr : last + margin ≤ j ∧ (j : ℤ) < sliceStopZ n ((ind : ℤ) - margin)
        · have hmk : markedBy n consec margin (last, ind) j := ⟨h, hr.1, hr.2⟩
          simp only [if_pos hr]
          tauto
        · have hmk : ¬ markedBy n consec margin (last, ind) j := fun hmk => hr ⟨hmk.2.1, hmk.2.2⟩
          simp only [if_neg hr]
          tauto
      · rw [if_neg h]
        have hmk : ¬ markedBy n consec margin (last, ind) j := fun hmk => h hmk.1
        tauto

/-- Characterization of `build_final_mask`: an index is dropped iff some walk
pair over the loud indices (with `last_ind` initialized to `0`) marks it. -/
theorem build_final_mask_false_iff (data_tmp : List ℚ) (thr : Option ℚ)
    (samplerate windowFactor margin j : ℕ) :
    build_final_mask data_tmp thr samplerate windowFactor margin j = false ↔
      ∃ p ∈ List.zip (0 :: to_check data_tmp thr) (to_check data_tmp thr),
        markedBy data_tmp.length (samplerate / windowFactor) margin p j := by
  unfold build_final_mask
  rw [maskFold_false_iff]
  simp

theorem to_check_sorted (data_tmp : List ℚ) (thr : Option ℚ) :
    List.Sorted (· < ·) (to_check data_tmp thr) :=
  (List.sorted_lt_range _).filter _

theorem mem_to_check (data_tmp : List ℚ) (thr : Option ℚ) (i : ℕ) :
    i ∈ to_check data_tmp thr ↔
      i < data_tmp.length ∧ qlt |data_tmp.getD i 0| thr = false := by
  unfold to_check
  rw [List.mem_filter, List.mem_range]
  simp

/-- For any list sorted strictly ascending and bounded below by `a0`, the
adjacent pairs of the walk `(a0 :: l)` against `l` have ordered components
and no list element strictly between them. -/
theorem zip_pairs_props : ∀ (l : List ℕ) (a0 : ℕ), List.Sorted (· < ·) l →
    (∀ x ∈ l, a0 ≤ x) →
    ∀ p ∈ List.zip (a0 :: l) l, p.1 ≤ p.2 ∧ ∀ i, p.1 < i → i < p.2 → i ∉ l := by
  intro l
  induction l with
  | nil => intro a0 _ _ p hp; simp at hp
  | cons b rest ih =>
      intro a0 hsort hlb p hp
      rw [List.zip_cons_cons] at hp
      have hs := List.sorted_cons.mp hsort
      rcases List.mem_cons.mp hp with rfl | hp'
      · refine ⟨hlb b (by simp), ?_⟩
        intro i h1 h2 hi
        rcases List.mem_cons.mp hi with rfl | hmem
        · exact absurd h2 (lt_irrefl _)
        · have := hs.1 i hmem
          omega
      · have key := ih b hs.2 (fun x hx => le_of_lt (hs.1 x hx)) p hp'
        refine ⟨key.1, ?_⟩
        intro i h1 h2 hi
        rcases List.mem_cons.mp hi with hib | hmem
        · have hp1 : p.1 ∈ b :: rest := (List.of_mem_zip hp').1
          rcases List.mem_cons.mp hp1 with h | h
          · omega
          · have := hs.1 p.1 h
            omega
        · exact key.2 i h1 h2 hmem

/-- Every walk pair `(a, b)` of the loud-index scan satisfies `a ≤ b`, has a
loud right endpoint, and every index strictly between `a` and `b` is silent
(below threshold). -/
theorem walk_pairs_spec (data_tmp : List ℚ) (thr : Option ℚ) (p : ℕ × ℕ)
    (hp : p ∈ List.zip (0 :: to_check data_tmp thr) (to_check data_tmp thr)) :
    p.1 ≤ p.2 ∧ p.2 ∈ to_check data_tmp thr ∧
      ∀ i, p.1 < i → i < p.2 → qlt |data_tmp.getD i 0| thr = true := by
  have hmem := List.of_mem_zip hp
  have key := zip_pairs_props (to_check data_tmp thr) 0 (to_check_sorted _ _)
    (fun x _ => Nat.zero_le x) p hp
  refine ⟨key.1, hmem.2, ?_⟩
  intro i h1 h2
  have hnot := key.2 i h1 h2
  have hi_n : i < data_tmp.length := by
    have := ((mem_to_check _ _ p.2).mp hmem.2).1
    omega
  cases h : qlt |data_tmp.getD i 0| thr
  · exact absurd ((mem_to_check _ _ i).mpr ⟨hi_n, h⟩) hnot
  · rfl

/-- `skipCount` satisfies the unfolding equation of the source loop
`while to_keep[int(index)] >= expected_frame: grab(); expected_frame +=
increment` (lines 118-120), certifying the closed form against the loop. -/
theorem skipCount_eq_loop (target e inc : ℚ) (hinc : 0 < inc) :
    skipCount target e inc =
      if e ≤ target then skipCount target (e + inc) inc + 1 else 0 := by
  by_cases h : e ≤ target
  · rw [if_pos h]
    unfold skipCount
    rw [if_pos ⟨hinc, h⟩]
    by_cases h2 : e + inc ≤ target
    · rw [if_pos ⟨hinc, h2⟩]
      have hfl : (target - e) / inc = (target - (e + inc)) / inc + 1 := by
        field_simp
        ring
      rw [hfl, Int.floor_add_one]
      have h0 : 0 ≤ ⌊(target - (e + inc)) / inc⌋ :=
        Int.floor_nonneg.mpr (div_nonneg (by linarith) hinc.le)
      omega
    · rw [if_neg (fun hc => h2 hc.2)]
      have hz : ⌊(target - e) / inc⌋ = 0 := by
        rw [Int.floor_eq_zero_iff]
        refine Set.mem_Ico.mpr ⟨div_nonneg (by linarith) hinc.le, ?_⟩
        rw [div_lt_one hinc]
        linarith [not_le.mp h2]
      rw [hz]
      rfl
  · rw [if_neg h]
    unfold skipCount
    rw [if_neg (fun hc => h hc.2)]

/-- When the skip loop runs at least once, its last iteration still had the
cursor at or below the target. -/
theorem skipCount_last_le (target e inc : ℚ) (hinc : 0 < inc)
    (hs : 1 ≤ skipCount target e inc) :
    e + ((skipCount target e inc : ℚ) - 1) * inc ≤ target := by
  unfold skipCount at *
  by_cases h : e ≤ target
  · rw [if_pos ⟨hinc, h⟩] at *
    have h0 : 0 ≤ ⌊(target - e) / inc⌋ :=
      Int.floor_nonneg.mpr (div_nonneg (by linarith) hinc.le)
    have h1 : ((⌊(target - e) / inc⌋ + 1).toNat : ℤ) = ⌊(target - e) / inc⌋ + 1 :=
      Int.toNat_of_nonneg (by omega)
    have h2 : (((⌊(target - e) / inc⌋ + 1).toNat : ℕ) : ℚ)
        = ((⌊(target - e) / inc⌋ : ℤ) : ℚ) + 1 := by
      exact_mod_cast congrArg (fun z : ℤ => (z : ℚ)) h1
    rw [h2]
    have h3 : ((⌊(target - e) / inc⌋ : ℤ) : ℚ) * inc ≤ target - e := by
      have h4 : ((⌊(target - e) / inc⌋ : ℤ) : ℚ) ≤ (target - e) / inc := Int.floor_le _
      calc ((⌊(target - e) / inc⌋ : ℤ) : ℚ) * inc
          ≤ ((target - e) / inc) * inc := by
            exact mul_le_mul_of_nonneg_right h4 hinc.le
        _ = target - e := div_mul_cancel₀ _ hinc.ne'
    linarith
  · rw [if_neg (fun hc => h hc.2)] at hs
    omega

theorem planFold_length (toKeep : List ℕ) (inc : ℚ) :
    ∀ (l : List ℚ) (st : ℚ × ℕ), (planFold toKeep inc l st).length = l.length := by
  intro l
  induction l with
  | nil => intro st; simp [planFold]
  | cons x rest ih => intro st; simp [planFold, ih]

theorem arangeQ_length (stop : ℕ) (step : ℚ) (h : 0 < step) :
    (arangeQ stop step).length = Int.toNat ⌈(stop : ℚ) / step⌉ := by
  unfold arangeQ
  rw [if_pos h, List.length_map, List.length_range]

/-- The cursor positions emitted by the plan loop dominate the incoming grab
count and form a non-decreasing sequence: the video cursor is forward-only. -/
theorem planFold_mono (toKeep : List ℕ) (inc : ℚ) :
    ∀ (l : List ℚ) (st : ℚ × ℕ),
      (∀ g ∈ planFold toKeep inc l st, st.2 ≤ g) ∧
        List.Chain' (· ≤ ·) (planFold toKeep inc l st) := by
  intro l
  induction l with
  | nil => intro st; simp [planFold]
  | cons x rest ih =>
      intro st
      simp only [planFold]
      constructor
      · intro g hg
        rcases List.mem_cons.mp hg with hge | hmem
        · omega
        · have := (ih _).1 g hmem
          simp only at this
          omega
      · rw [List.chain'_cons']
        refine ⟨?_, (ih _).2⟩
        intro b hb
        have hbmem := List.mem_of_mem_head? hb
        have := (ih _).1 b hbmem
        simp only at this
        omega

/-- Invariant proof for the skip bound: starting from a state whose cursor
equals `grabs * inc` and whose grab count is within bound, every later
emitted cursor position stays at most `fc` (the frame count), provided
`inc = N / fc` and every retained index is below `N`. -/
theorem planFold_le_bound (toKeep : List ℕ) (N fc : ℕ) (hN : 0 < N) (hfc : 0 < fc)
    (hmem : ∀ t ∈ toKeep, t < N) :
    ∀ (l : List ℚ) (st : ℚ × ℕ),
      st.1 = (st.2 : ℚ) * ((N : ℚ) / (fc : ℚ)) →
      (st.2 = 0 ∨ ((st.2 : ℚ) - 1) * ((N : ℚ) / (fc : ℚ)) ≤ (N : ℚ) - 1) →
      ∀ g ∈ planFold toKeep ((N : ℚ) / (fc : ℚ)) l st, g ≤ fc := by
  have hinc : 0 < (N : ℚ) / (fc : ℚ) := by positivity
  intro l
  induction l with
  | nil => intro st _ _ g hg; simp [planFold] at hg
  | cons x rest ih =>
      intro st hI1 hI2 g hg
      simp only [planFold] at hg
      set t : ℚ := ((toKeep.getD (Int.toNat ⌊x⌋) 0 : ℕ) : ℚ) with ht
      set s := skipCount t st.1 ((N : ℚ) / (fc : ℚ)) with hsdef
      have htb : t ≤ (N : ℚ) - 1 := by
        rw [ht]
        have hNq : (1 : ℚ) ≤ (N : ℚ) := by exact_mod_cast hN
        have hv : toKeep.getD (Int.toNat ⌊x⌋) 0 < N ∨ toKeep.getD (Int.toNat ⌊x⌋) 0 = 0 := by
          by_cases hidx : Int.toNat ⌊x⌋ < toKeep.length
          · refine Or.inl (hmem _ ?_)
            rw [List.getD_eq_getElem _ _ hidx]
            exact List.getElem_mem hidx
          · exact Or.inr (List.getD_eq_default _ _ (le_of_not_lt hidx))
        rcases hv with hv | hv
        · have hc : ((toKeep.getD (Int.toNat ⌊x⌋) 0 : ℕ) : ℚ) + 1 ≤ (N : ℚ) := by
            exact_mod_cast Nat.succ_le_of_lt hv
          linarith
        · rw [hv]
          push_cast
          linarith
      have hPnew : (st.2 + s = 0) ∨
          (((st.2 + s : ℕ) : ℚ) - 1) * ((N : ℚ) / (fc : ℚ)) ≤ (N : ℚ) - 1 := by
        by_cases hs0 : s = 0
        · rcases hI2 with h | h
          · left; omega
          · right
            push_cast
            rw [hs0]
            push_cast
            linarith [h]
        · right
          have hs1 : 1 ≤ s := Nat.one_le_iff_ne_zero.mpr hs0
          have hlast := skipCount_last_le t st.1 ((N : ℚ) / (fc : ℚ)) hinc (by rw [← hsdef]; exact hs1)
          rw [← hsdef] at hlast
          rw [hI1] at hlast
          have : (((st.2 + s : ℕ) : ℚ) - 1) * ((N : ℚ) / (fc : ℚ))
              = (st.2 : ℚ) * ((N : ℚ) / (fc : ℚ)) + ((s : ℚ) - 1) * ((N : ℚ) / (fc : ℚ)) := by
            push_cast
            ring
          rw [this]
          linarith
      rcases List.mem_cons.mp hg with hge | hmem2
      · subst hge
        rcases hPnew with h | h
        · omega
        · by_contra hgt
          have hge2 : fc + 1 ≤ st.2 + s := by omega
          have hq : (fc : ℚ) + 1 ≤ ((st.2 + s : ℕ) : ℚ) := by exact_mod_cast hge2
          have hmul : (fc : ℚ) * ((N : ℚ) / (fc : ℚ)) = (N : ℚ) := by
            field_simp
          have hge3 : (fc : ℚ) * ((N : ℚ) / (fc : ℚ))
              ≤ (((st.2 + s : ℕ) : ℚ) - 1) * ((N : ℚ) / (fc : ℚ)) := by
            apply mul_le_mul_of_nonneg_right _ hinc.le
            linarith
          rw [hmul] at hge3
          linarith
      · exact ih (st.1 + (s : ℚ) * ((N : ℚ) / (fc : ℚ)), st.2 + s)
          (by push_cast; rw [hI1]; ring) hPnew g hmem2

/-- Fusion of the arange iteration with the amended per-index description:
iterating `planFold` over the mapped values `k * inc` is the same as
iterating the amended fold over the output-frame indices. -/
theorem planFold_map_eq (toKeep : List ℕ) (inc : ℚ) :
    ∀ (ks : List ℕ) (st : ℚ × ℕ),
      planFold toKeep inc (ks.map (fun k : ℕ => ((k : ℚ) * inc))) st
        = planFoldAmended toKeep inc ks st := by
  intro ks
  induction ks with
  | nil => intro st; simp [planFold, planFoldAmended]
  | cons k rest ih =>
      intro st
      simp only [List.map_cons, planFold, planFoldAmended]
      rw [ih]

set_option maxRecDepth 40000 in
/-- C1: the claim states the mask builder sets exactly the integer interval
`[lastLoudIndex + margin, ind - margin)` to false and no other entries.
Evaluation at a failing input: envelope of length 400 that is loud (= 1)
exactly at indices 0 and 30, threshold 1, samplerate 100 (so
`consec_frames = 20`).  The walk pair `(0, 30)` has gap `30 > 20`, and the
claimed interval `[0 + 100, 30 - 100)` is empty, so the claim predicts an
all-true mask; the code instead executes `final_mask[100 : -70] = False`,
whose negative stop wraps to `400 - 70 = 330`, and index 200 is dropped. -/
theorem C1_slice_wrap_eval :
    to_check ((List.range 400).map (fun i => if i = 0 ∨ i = 30 then (1 : ℚ) else 0)) (some 1)
        = [0, 30] ∧
    build_final_mask ((List.range 400).map (fun i => if i = 0 ∨ i = 30 then (1 : ℚ) else 0))
        (some 1) 100 5 100 200 = false := by
  decide

/-- C2 counterexample: on the all-zero envelope `[0, 0, 0]` the Sensitive
strategy does not return threshold 0: the below-mean subset is empty, so
`np.mean` of it is NaN (modelled `none`), and the code does not fall back
to the overall mean. -/
theorem C2_counterexample :
    silence_threshold (List.replicate 3 0) ThresholdAlgo.SENSITIVE ≠ some 0 := by
  norm_num [silence_threshold, npMean, List.replicate_succ, List.filter]
  simp

/-- C2 amended: on an all-zero envelope no strategy raises an error (all are
total here); Weak and Strong return threshold 0, while Sensitive and
Moderate return NaN (`none`) because the below-mean subset
`envelope[envelope < 0]` is empty and `np.mean([])` is NaN — the code never
falls back to the overall mean `μ`. -/
theorem C2_all_zero_thresholds (n : ℕ) (hn : 0 < n) :
    silence_threshold (List.replicate n 0) ThresholdAlgo.WEAK = some 0 ∧
    silence_threshold (List.replicate n 0) ThresholdAlgo.STRONG = some 0 ∧
    silence_threshold (List.replicate n 0) ThresholdAlgo.SENSITIVE = none ∧
    silence_threshold (List.replicate n 0) ThresholdAlgo.MODERATE = none := by
  have hlen : (List.replicate n (0 : ℚ)).length ≠ 0 := by
    simp [hn.ne']
  have hmean : npMean (List.replicate n (0 : ℚ)) = some 0 := by
    unfold npMean
    rw [if_neg hlen]
    simp
  have hfilter : (List.replicate n (0 : ℚ)).filter (fun x => decide (|x| < 0)) = [] := by
    rw [List.filter_eq_nil_iff]
    intro a ha
    rw [List.eq_of_mem_replicate ha]
    simp
  refine ⟨?_, ?_, ?_, ?_⟩
  · simp [silence_threshold, hmean]
  · simp [silence_threshold, hmean]
  · simp only [silence_threshold, hmean, hfilter]
    simp [npMean]
  · simp only [silence_threshold, hmean, hfilter]
    simp [npMean]

/-- Witness for C2: the amended statement instantiated on the all-zero
envelope of length 4. -/
theorem C2_witness :
    silence_threshold (List.replicate 4 0) ThresholdAlgo.WEAK = some 0 ∧
    silence_threshold (List.replicate 4 0) ThresholdAlgo.STRONG = some 0 ∧
    silence_threshold (List.replicate 4 0) ThresholdAlgo.SENSITIVE = none ∧
    silence_threshold (List.replicate 4 0) ThresholdAlgo.MODERATE = none :=
  C2_all_zero_thresholds 4 (by norm_num)

set_option maxRecDepth 40000 in
/-- C7: the claim states every sample after the final loud index is retained.
Evaluation at a failing input: envelope of length 400, loud exactly at 0 and
25, threshold 1, samplerate 100 (`consec_frames = 20`).  The pair `(0, 25)`
triggers `final_mask[100 : -75] = False`, wrapping to `[100, 325)`, so index
300 — after the final loud index 25 — is dropped. -/
theorem C7_tail_removed_eval :
    to_check ((List.range 400).map (fun i => if i = 0 ∨ i = 25 then (1 : ℚ) else 0)) (some 1)
        = [0, 25] ∧
    build_final_mask ((List.range 400).map (fun i => if i = 0 ∨ i = 25 then (1 : ℚ) else 0))
        (some 1) 100 5 100 300 = false := by
  decide

/-- Auxiliary: filtering a constant list with a predicate false on the
constant yields the empty list. -/
theorem filter_replicate_of_neg {α : Type} {a : α} {p : α → Bool} (h : p a = false) :
    ∀ n : ℕ, (List.replicate n a).filter p = [] := by
  intro n
  induction n with
  | zero => rfl
  | succ k ih => simp [List.replicate_succ, List.filter_cons, h, ih]

/-- Auxiliary: filtering a constant list with a predicate true on the
constant keeps the whole list. -/
theorem filter_replicate_of_pos {α : Type} {a : α} {p : α → Bool} (h : p a = true) :
    ∀ n : ℕ, (List.replicate n a).filter p = List.replicate n a := by
  intro n
  induction n with
  | zero => rfl
  | succ k ih => simp [List.replicate_succ, List.filter_cons, h, ih]

set_option maxRecDepth 40000 in
/-- C10: the claim states no loud sample is ever dropped.  Evaluation at a
failing input: single-channel data of length 102 with values 300, 3, 3 at
indices 0, 99 and 100 and zeros elsewhere, samplerate 5
(`consec_frames = 1`), Strong strategy.  The threshold is the mean
`306/102 = 3`, so indices 0, 99 and 100 are loud; the walk pair `(0, 99)`
has gap `99 > 1` and executes `final_mask[100 : -1] = False`, wrapping to
`[100, 101)` — dropping the loud sample at index 100. -/
theorem C10_loud_dropped_eval :
    silence_threshold (((300 : ℚ) :: (List.replicate 98 0 ++ [3, 3, 0])).map (fun x => |x|))
        ThresholdAlgo.STRONG = some 3 ∧
    qlt |(((300 : ℚ) :: (List.replicate 98 0 ++ [3, 3, 0])).map (fun x => |x|)).getD 100 0|
        (some 3) = false ∧
    get_edited_audio_matrix ((300 : ℚ) :: (List.replicate 98 0 ++ [3, 3, 0]))
        5 ThresholdAlgo.STRONG 100 = false := by
  have hmap : (((300 : ℚ) :: (List.replicate 98 0 ++ [3, 3, 0])).map (fun x => |x|))
      = (300 : ℚ) :: (List.replicate 98 0 ++ [3, 3, 0]) := by
    norm_num [List.map_append]
  have hthr : silence_threshold ((300 : ℚ) :: (List.replicate 98 0 ++ [3, 3, 0]))
      ThresholdAlgo.STRONG = some 3 := by
    norm_num [silence_threshold, npMean, List.sum_append, List.sum_replicate]
  refine ⟨?_, ?_, ?_⟩
  · rw [hmap, hthr]
  · rw [hmap]
    decide
  · simp only [get_edited_audio_matrix]
    rw [hmap, hthr]
    decide

set_option maxRecDepth 40000 in
/-- C3: the claim states `cut_audio` builds the retain mask from its
caller-supplied strategy.  Line 220 instead hardcodes
`method=ThresholdAlgo.MODERATE`.  Evaluation at a failing input:
data `[86527, 415, 208]` followed by 207 zeros, samplerate 1
(`consec_frames = 0`), requested strategy Strong.  The Strong mask (mean
threshold 415, loud indices 0 and 1) keeps index 111, but `cut_audio`
computes the Moderate mask (threshold `(1 + 415)/2 = 208`, loud indices 0,
1 and 2), which drops index 111 — so the strategy the caller chose is not
the one used. -/
theorem C3_method_ignored_eval :
    cut_audio_mask ([86527, 415, 208] ++ List.replicate 207 (0 : ℚ)) 1 ThresholdAlgo.STRONG 111
        = false ∧
    get_edited_audio_matrix ([86527, 415, 208] ++ List.replicate 207 (0 : ℚ)) 1
        ThresholdAlgo.STRONG 111 = true := by
  have hmap : (([86527, 415, 208] ++ List.replicate 207 (0 : ℚ)).map (fun x => |x|))
      = [86527, 415, 208] ++ List.replicate 207 (0 : ℚ) := by
    norm_num [List.map_append]
  have hmean : npMean ([86527, 415, 208] ++ List.replicate 207 (0 : ℚ)) = some 415 := by
    norm_num [npMean, List.sum_append, List.sum_replicate]
  have hfil : ([86527, 415, 208] ++ List.replicate 207 (0 : ℚ)).filter
        (fun x => decide (|x| < 415))
      = 208 :: List.replicate 207 (0 : ℚ) := by
    rw [List.filter_append, filter_replicate_of_pos (by norm_num)]
    norm_num [List.filter]
  have hmean2 : npMean (208 :: List.replicate 207 (0 : ℚ)) = some 1 := by
    norm_num [npMean, List.sum_replicate]
  have hstrong : silence_threshold ([86527, 415, 208] ++ List.replicate 207 (0 : ℚ))
      ThresholdAlgo.STRONG = some 415 := by
    simp only [silence_threshold]
    exact hmean
  have hmod : silence_threshold ([86527, 415, 208] ++ List.replicate 207 (0 : ℚ))
      ThresholdAlgo.MODERATE = some 208 := by
    simp only [silence_threshold, hmean, hfil, hmean2, Option.map_some]
    norm_num
  constructor
  · simp only [cut_audio_mask, get_edited_audio_matrix]
    rw [hmap, hmod]
    decide
  · simp only [get_edited_audio_matrix]
    rw [hmap, hstrong]
    decide

set_option maxRecDepth 40000 in
/-- C4 counterexample: with samplerate 1005 and window factor 5,
`minSilenceRunLength = 201`.  The envelope of length 203, loud exactly at 0
and 202, contains a single interior silent run `[1, 202)` of length exactly
201 — not longer than `minSilenceRunLength` — yet the loud gap is
`202 > 201`, so the mask is changed: index 100 is dropped.  This refutes
"only silent runs longer than minSilenceRunLength samples affect the mask". -/
theorem C4_counterexample :
    to_check ((List.range 203).map (fun i => if i = 0 ∨ i = 202 then (1 : ℚ) else 0)) (some 1)
        = [0, 202] ∧
    (1005 / 5 : ℕ) = 201 ∧
    build_final_mask ((List.range 203).map (fun i => if i = 0 ∨ i = 202 then (1 : ℚ) else 0))
        (some 1) 1005 5 100 100 = false := by
  decide

/-- C4 amended: a silent run shorter than `minSilenceRunLength` is never
removed — for any envelope whose silent samples are exactly the interval
`[s, e)` with `e - s < samplerate / windowFactor`, the mask stays all-true;
and the mask is only ever changed by a gap between consecutive loud indices
(with `lastLoudIndex` starting at 0) strictly exceeding
`minSilenceRunLength` — so runs of length at least `minSilenceRunLength`
(not only strictly longer ones) can affect the mask. -/
theorem C4_short_runs_never_removed :
    (∀ (env : List ℚ) (thr : Option ℚ) (samplerate windowFactor margin s e : ℕ),
      (∀ i, i < env.length → (qlt |env.getD i 0| thr = true ↔ (s ≤ i ∧ i < e))) →
      e - s < samplerate / windowFactor →
      ∀ j, build_final_mask env thr samplerate windowFactor margin j = true) ∧
    (∀ (env : List ℚ) (thr : Option ℚ) (samplerate windowFactor margin j : ℕ),
      build_final_mask env thr samplerate windowFactor margin j = false →
      ∃ p ∈ List.zip (0 :: to_check env thr) (to_check env thr),
        (p.2 : ℤ) - (p.1 : ℤ) > ((samplerate / windowFactor : ℕ) : ℤ)) := by
  constructor
  · intro env thr samplerate windowFactor margin s e hrun hL j
    cases hb : build_final_mask env thr samplerate windowFactor margin j
    · exfalso
      obtain ⟨p, hp, hmk⟩ := (build_final_mask_false_iff env thr samplerate windowFactor margin j).mp hb
      obtain ⟨hab, hbmem, hbet⟩ := walk_pairs_spec env thr p hp
      set c := samplerate / windowFactor with hc
      have hgap : (p.2 : ℤ) - p.1 > (c : ℤ) := hmk.1
      have hc1 : 0 < c := Nat.lt_of_le_of_lt (Nat.zero_le _) hL
      have hb2 : p.1 + 2 ≤ p.2 := by omega
      have hbn : p.2 < env.length := ((mem_to_check env thr p.2).mp hbmem).1
      have hs1 := (hrun (p.1 + 1) (by omega)).mp (hbet (p.1 + 1) (by omega) (by omega))
      have hs2 := (hrun (p.2 - 1) (by omega)).mp (hbet (p.2 - 1) (by omega) (by omega))
      omega
    · rfl
  · intro env thr samplerate windowFactor margin j hb
    obtain ⟨p, hp, hmk⟩ := (build_final_mask_false_iff env thr samplerate windowFactor margin j).mp hb
    exact ⟨p, hp, hmk.1⟩

/-- Witness for C4: the amended part 1 instantiated on the envelope
`[1, 0, 1]` (silent run `[1, 2)` of length 1 < 2 = 10 / 5), checking the
mask is true at index 1. -/
theorem C4_witness :
    build_final_mask [(1 : ℚ), 0, 1] (some 1) 10 5 1 1 = true :=
  C4_short_runs_never_removed.1 [(1 : ℚ), 0, 1] (some 1) 10 5 1 1 2
    (by decide) (by decide) 1

/-- C5: the threshold estimator computes, for an envelope with mean `μ` and
below-mean-subset mean `μ₂` (whenever that subset is nonempty): Sensitive
`2·μ₂`, Weak `μ/2`, Moderate `(μ₂ + μ)/2`, Strong exactly `μ`.  The
hypothesis that envelope entries are non-negative identifies the source's
subset `np.abs(data_tmp) < μ` with the claim's "values strictly below μ". -/
theorem C5_threshold_formulas (env : List ℚ) (hne : env ≠ [])
    (hnn : ∀ x ∈ env, 0 ≤ x) :
    silence_threshold env ThresholdAlgo.STRONG = some (env.sum / (env.length : ℚ)) ∧
    silence_threshold env ThresholdAlgo.WEAK = some (env.sum / (env.length : ℚ) / 2) ∧
    (env.filter (fun x => decide (x < env.sum / (env.length : ℚ))) ≠ [] →
      silence_threshold env ThresholdAlgo.SENSITIVE
        = some (2 * ((env.filter (fun x => decide (x < env.sum / (env.length : ℚ)))).sum
            / ((env.filter (fun x => decide (x < env.sum / (env.length : ℚ)))).length : ℚ))) ∧
      silence_threshold env ThresholdAlgo.MODERATE
        = some ((((env.filter (fun x => decide (x < env.sum / (env.length : ℚ)))).sum
            / ((env.filter (fun x => decide (x < env.sum / (env.length : ℚ)))).length : ℚ))
            + env.sum / (env.length : ℚ)) / 2)) := by
  have hlen : env.length ≠ 0 := fun h => hne (List.length_eq_zero.mp h)
  have hmean : npMean env = some (env.sum / (env.length : ℚ)) := by
    unfold npMean
    rw [if_neg hlen]
  have hfeq : env.filter (fun x => decide (|x| < env.sum / (env.length : ℚ)))
      = env.filter (fun x => decide (x < env.sum / (env.length : ℚ))) :=
    List.filter_congr (fun x hx => by rw [abs_of_nonneg (hnn x hx)])
  refine ⟨?_, ?_, fun hbne => ?_⟩
  · simp only [silence_threshold]
    exact hmean
  · simp only [silence_threshold, hmean, Option.map_some']
  · have hblen : (env.filter (fun x => decide (x < env.sum / (env.length : ℚ)))).length ≠ 0 :=
      fun h => hbne (List.length_eq_zero.mp h)
    have hbmean : npMean (env.filter (fun x => decide (x < env.sum / (env.length : ℚ))))
        = some ((env.filter (fun x => decide (x < env.sum / (env.length : ℚ)))).sum
            / ((env.filter (fun x => decide (x < env.sum / (env.length : ℚ)))).length : ℚ)) := by
      unfold npMean
      rw [if_neg hblen]
    constructor
    · simp only [silence_threshold, hmean, hfeq, hbmean, Option.map_some']
      rw [mul_comm]
    · simp only [silence_threshold, hmean, hfeq, hbmean, Option.map_some']

/-- Witness for C5: the formulas instantiated on the envelope `[2, 0]`
(mean 1, below-mean subset `[0]`). -/
theorem C5_witness :
    silence_threshold [(2 : ℚ), 0] ThresholdAlgo.STRONG
      = some ([(2 : ℚ), 0].sum / (([(2 : ℚ), 0].length : ℕ) : ℚ)) ∧
    silence_threshold [(2 : ℚ), 0] ThresholdAlgo.SENSITIVE
      = some (2 * (([(2 : ℚ), 0].filter (fun x => decide (x < [(2 : ℚ), 0].sum / (([(2 : ℚ), 0].length : ℕ) : ℚ)))).sum
          / ((([(2 : ℚ), 0].filter (fun x => decide (x < [(2 : ℚ), 0].sum / (([(2 : ℚ), 0].length : ℕ) : ℚ)))).length : ℕ) : ℚ))) := by
  obtain ⟨h1, _, h3⟩ := C5_threshold_formulas [(2 : ℚ), 0] (by simp) (by decide)
  exact ⟨h1, (h3 (by norm_num [List.filter])).1⟩

set_option maxRecDepth 40000 in
/-- C6 counterexample.  First conjunct (lead-in off by one): envelope of
length 204 loud exactly at 0 and 203, samplerate 1005
(`minSilenceRunLength = 201`), interior silent run `[1, 203)` with
`end - start = 202 > 2 · 100`; the claim says `[1, 101)` stays retained, but
the code marks `[0 + 100, 203 - 100)`, dropping index 100.  Second conjunct
(no-op edge case fails): envelope of length 300 loud exactly at 0 and 23,
samplerate 100; `lastLoudIndex + margin = 100 ≥ 23 - 100 = -77`, so the
claim says nothing is removed, but the Python slice `[100 : -77]` wraps to
`[100, 223)` and index 150 is dropped. -/
theorem C6_counterexample :
    build_final_mask ((List.range 204).map (fun i => if i = 0 ∨ i = 203 then (1 : ℚ) else 0))
        (some 1) 1005 5 100 100 = false ∧
    build_final_mask ((List.range 300).map (fun i => if i = 0 ∨ i = 23 then (1 : ℚ) else 0))
        (some 1) 100 5 100 150 = false := by
  decide

/-- C6 amended: assume no marking slice can wrap
(`margin ≤ minSilenceRunLength + 1`, true of the shipped constants for every
samplerate ≥ 495).  For an interior silent run `[s, e)` — loud at `s - 1`
and at `e`, silent in between — the retained lead-in is `[s, s + margin - 1)`
(one sample fewer than claimed, because the slice starts at
`(s - 1) + margin`) and the retained lead-out is `[e - margin, e)`; and every
dropped index lies in a proper, non-inverted interval
`[lastLoudIndex + margin, ind - margin)` of a gap exceeding
`minSilenceRunLength`, so an empty or inverted interval removes nothing. -/
theorem C6_margin_rules (env : List ℚ) (thr : Option ℚ)
    (samplerate windowFactor margin s e : ℕ)
    (hm : margin ≤ samplerate / windowFactor + 1)
    (hs1 : 1 ≤ s) (hse : s ≤ e) (hen : e < env.length)
    (hsil : ∀ i, i < e → s ≤ i → qlt |env.getD i 0| thr = true)
    (hl1 : qlt |env.getD (s - 1) 0| thr = false)
    (hl2 : qlt |env.getD e 0| thr = false) :
    (∀ j, s ≤ j → j + 1 < s + margin →
      build_final_mask env thr samplerate windowFactor margin j = true) ∧
    (∀ j, e ≤ j + margin → j < e →
      build_final_mask env thr samplerate windowFactor margin j = true) ∧
    (∀ j, build_final_mask env thr samplerate windowFactor margin j = false →
      ∃ p ∈ List.zip (0 :: to_check env thr) (to_check env thr),
        (p.2 : ℤ) - (p.1 : ℤ) > ((samplerate / windowFactor : ℕ) : ℤ) ∧
        (p.1 : ℤ) + margin ≤ (j : ℤ) ∧ (j : ℤ) < (p.2 : ℤ) - margin) := by
  set c := samplerate / windowFactor with hc
  have nowrap : ∀ (p : ℕ × ℕ) (j : ℕ),
      markedBy env.length c margin p j → (j : ℤ) < (p.2 : ℤ) - margin := by
    intro p j hmk
    have hnw : (0 : ℤ) ≤ (p.2 : ℤ) - margin := by
      have := hmk.1
      omega
    exact lt_of_lt_of_le hmk.2.2 (sliceStopZ_le_self env.length _ hnw)
  refine ⟨?_, ?_, ?_⟩
  · intro j hj1 hjm
    cases hb : build_final_mask env thr samplerate windowFactor margin j
    · exfalso
      obtain ⟨p, hp, hmk⟩ := (build_final_mask_false_iff env thr samplerate windowFactor margin j).mp hb
      obtain ⟨hab, hbmem, hbet⟩ := walk_pairs_spec env thr p hp
      have hj2 := nowrap p j hmk
      have hm1 := hmk.2.1
      have hql := hbet (s - 1) (by omega) (by omega)
      rw [hql] at hl1
      exact Bool.noConfusion hl1
    · rfl
  · intro j hj1 hj2
    cases hb : build_final_mask env thr samplerate windowFactor margin j
    · exfalso
      obtain ⟨p, hp, hmk⟩ := (build_final_mask_false_iff env thr samplerate windowFactor margin j).mp hb
      obtain ⟨hab, hbmem, hbet⟩ := walk_pairs_spec env thr p hp
      have hj3 := nowrap p j hmk
      have hm1 := hmk.2.1
      have hql := hbet e (by omega) (by omega)
      rw [hql] at hl2
      exact Bool.noConfusion hl2
    · rfl
  · intro j hb
    obtain ⟨p, hp, hmk⟩ := (build_final_mask_false_iff env thr samplerate windowFactor margin j).mp hb
    exact ⟨p, hp, hmk.1, by have := hmk.2.1; omega, nowrap p j hmk⟩

/-- Witness for C6: the amended margin rules instantiated on the envelope
`[1, 0, 0, 0, 0, 0, 0, 0, 0, 1]` with samplerate 10, window factor 5
(`minSilenceRunLength = 2`) and margin 3: the removed interval is `[3, 6)`,
and indices 1 (lead-in) and 7 (lead-out) stay retained. -/
theorem C6_witness :
    build_final_mask [(1 : ℚ), 0, 0, 0, 0, 0, 0, 0, 0, 1] (some 1) 10 5 3 1 = true ∧
    build_final_mask [(1 : ℚ), 0, 0, 0, 0, 0, 0, 0, 0, 1] (some 1) 10 5 3 7 = true :=
  ⟨(C6_margin_rules [(1 : ℚ), 0, 0, 0, 0, 0, 0, 0, 0, 1] (some 1) 10 5 3 1 9
      (by decide) (by decide) (by decide) (by decide) (by decide) (by decide) (by decide)).1
      1 (by decide) (by decide),
   (C6_margin_rules [(1 : ℚ), 0, 0, 0, 0, 0, 0, 0, 0, 1] (some 1) 10 5 3 1 9
      (by decide) (by decide) (by decide) (by decide) (by decide) (by decide) (by decide)).2.1
      7 (by decide) (by decide)⟩

/-- C8 counterexample: with retained indices `[0, 3, 9]` and
`samplesPerFrame = 17/10`, the code's plan is `[1, 2]` while the claimed
description (round-and-clamp target, skip strictly while cursor < target)
yields `[0, 6]`: the code truncates `int(1.7) = 1` (target 3, not
`retained[round(1.7)] = retained[2] = 9`) and also skips when the cursor
equals the target. -/
theorem C8_counterexample :
    frame_selection_plan [0, 3, 9] (17/10) ≠ frame_plan_claimed [0, 3, 9] (17/10) := by
  have hc : ⌈((([0, 3, 9] : List ℕ).length : ℚ)) / (17/10)⌉ = 2 := by
    rw [show ((([0, 3, 9] : List ℕ).length : ℚ)) / (17/10) = 30/17 by norm_num]
    rw [Int.ceil_eq_iff]
    norm_num
  have hc90 : ⌈((90 : ℚ)) / 17⌉ = 6 := by
    rw [Int.ceil_eq_iff]
    norm_num
  have ht2 : Int.toNat 2 = 2 := rfl
  have ht6 : Int.toNat 6 = 6 := rfl
  have h1 : frame_selection_plan [0, 3, 9] (17/10) = [1, 2] := by
    unfold frame_selection_plan arangeQ
    rw [if_pos (by norm_num), hc]
    norm_num [List.range_succ, planFold, skipCount]
  have h2 : frame_plan_claimed [0, 3, 9] (17/10) = [0, 6] := by
    unfold frame_plan_claimed
    rw [hc]
    norm_num [List.range_succ, planFoldClaimed, skipCountStrict, pythonRound, hc90, ht2, ht6]
  rw [h1, h2]
  simp

/-- C8 amended: for every retained-index list and positive samples-per-frame
increment, the code's plan has exactly `ceil(len / samplesPerFrame)` output
frames, and equals the amended stepping description: target index
`retainedIndexList[int(i · samplesPerFrame)]` (truncation — the clamp is
never needed since `i · samplesPerFrame < len`), skipping forward while
`targetIndex >= expectedSampleCursor`, then decoding at the cursor. -/
theorem C8_plan_amended (toKeep : List ℕ) (inc : ℚ) (hinc : 0 < inc) :
    frame_selection_plan toKeep inc = frame_plan_amended toKeep inc ∧
    (frame_selection_plan toKeep inc).length = Int.toNat ⌈(toKeep.length : ℚ) / inc⌉ := by
  constructor
  · unfold frame_selection_plan frame_plan_amended arangeQ
    rw [if_pos hinc, planFold_map_eq]
  · unfold frame_selection_plan
    rw [planFold_length, arangeQ_length _ _ hinc]

/-- Witness for C8: the amended plan equality instantiated at retained
indices `[0, 2]` and increment 2. -/
theorem C8_witness :
    frame_selection_plan [0, 2] 2 = frame_plan_amended [0, 2] 2 ∧
    (frame_selection_plan [0, 2] 2).length = Int.toNat ⌈((([0, 2] : List ℕ).length : ℕ) : ℚ) / 2⌉ :=
  C8_plan_amended [0, 2] 2 (by norm_num)

/-- C9: over the whole construction of the frame-selection plan the video
cursor is monotonically non-decreasing (never reset or rewound), the number
of full decodes equals `outputFrameCount = ceil(len / samplesPerFrame)`, and
with `samplesPerFrame = sampleCount / frameCount` and all retained indices
below `sampleCount`, every cursor position — in particular the total number
of cheap skips — is at most `frameCount`. -/
theorem C9_cursor_invariants (toKeep : List ℕ) (N fc : ℕ)
    (hN : 0 < N) (hfc : 0 < fc) (hmem : ∀ t ∈ toKeep, t < N) :
    List.Chain' (· ≤ ·) (frame_selection_plan toKeep ((N : ℚ) / (fc : ℚ))) ∧
    (frame_selection_plan toKeep ((N : ℚ) / (fc : ℚ))).length
      = Int.toNat ⌈(toKeep.length : ℚ) / ((N : ℚ) / (fc : ℚ))⌉ ∧
    ∀ g ∈ frame_selection_plan toKeep ((N : ℚ) / (fc : ℚ)), g ≤ fc := by
  have hinc : 0 < (N : ℚ) / (fc : ℚ) := by positivity
  refine ⟨(planFold_mono _ _ _ _).2, ?_, ?_⟩
  · unfold frame_selection_plan
    rw [planFold_length, arangeQ_length _ _ hinc]
  · intro g hg
    exact planFold_le_bound toKeep N fc hN hfc hmem _ (0, 0) (by simp) (Or.inl rfl) g hg

/-- Witness for C9: the invariants instantiated at retained indices
`[0, 5, 9]`, 10 samples and 2 frames (plan `[1]`). -/
theorem C9_witness :
    List.Chain' (· ≤ ·) (frame_selection_plan [0, 5, 9] (((10 : ℕ) : ℚ) / ((2 : ℕ) : ℚ))) ∧
    (frame_selection_plan [0, 5, 9] (((10 : ℕ) : ℚ) / ((2 : ℕ) : ℚ))).length
      = Int.toNat ⌈((([0, 5, 9] : List ℕ).length : ℕ) : ℚ) / (((10 : ℕ) : ℚ) / ((2 : ℕ) : ℚ))⌉ :=
  ⟨(C9_cursor_invariants [0, 5, 9] 10 2 (by norm_num) (by norm_num) (by decide)).1,
   (C9_cursor_invariants [0, 5, 9] 10 2 (by norm_num) (by norm_num) (by decide)).2.1⟩

end SilenceRemover
